import Mathlib

/-!
Verification of the tag query layer (`app/src/lib/git/tag.ts`).

Each operation of the layer issues one command through the runner and
parses the runner's stdout text. We embed the parsing cores as pure
functions from the stdout text (modelled as a list of characters, the
characters of a JavaScript string) to the structured results, following
the source line by line. JavaScript string primitives used by the source
(`split` with a one-character separator, `startsWith`, `endsWith`,
`replace` with an anchored literal pattern) are embedded first.
-/

/-- Characters of a JavaScript string. -/
abbrev Str := List Char

/-- JavaScript `s.split(sep)` for a one-character separator `sep`:
`"".split(sep)` is `[""]`, and a trailing separator yields a trailing
empty piece. -/
def jsSplit (sep : Char) : Str → List Str
  | [] => [[]]
  | ch :: cs =>
    if ch = sep then [] :: jsSplit sep cs
    else
      match jsSplit sep cs with
      | [] => [[ch]]
      | r :: rs => (ch :: r) :: rs

/-- JavaScript `s.endsWith(suf)`. -/
def jsEndsWith (s suf : Str) : Bool := suf.isSuffixOf s

/-- JavaScript `s.startsWith(p)`. -/
def jsStartsWith (s p : Str) : Bool := p.isPrefixOf s

/-- JavaScript `s.replace(re, '')` where `re` is an anchored regex
matching exactly the literal text `pat` at the start of the string:
drops one leading occurrence of `pat`, if present. -/
def jsDropStart (pat : Str) (s : Str) : Str :=
  if pat.isPrefixOf s then s.drop pat.length else s

/-- `getAllTags` parsing core (`tags.stdout.split('\n').filter(s => s !== '')`). -/
def getAllTags (stdout : Str) : List Str :=
  (jsSplit '\n' stdout).filter (fun s => decide (s ≠ []))

/-- The per-line map of `getAnnotatedTags`: an empty line maps to `''`;
otherwise the line is split on the null byte, `[name, objectType]` taking
the first two fields (`objectType` undefined when absent, hence not
`'tag'`); non-annotated tags have `objectType = 'commit'` and map to `''`. -/
def annotatedLine (tagLine : Str) : Str :=
  if tagLine = [] then []
  else
    match jsSplit '\x00' tagLine with
    | [] => []
    | [_] => []
    | name :: objectType :: _ => if objectType = "tag".toList then name else []

/-- `getAnnotatedTags` parsing core: map `annotatedLine` over the lines of
stdout and filter out `''`. -/
def getAnnotatedTags (stdout : Str) : List Str :=
  ((jsSplit '\n' stdout).map annotatedLine).filter (fun t => decide (t ≠ []))

/-- The per-line map of `fetchRemoteTags`: `const [, fullTagName] =
line.split('\t')` takes the second tab-field (undefined when absent);
undefined or empty fields and fields ending with the peeled marker
`^\x7b\x7d` give `null`; otherwise `.replace(/^refs\/tags\//, '')` drops a
leading `refs/tags/`, and `.replace(/^\x7b\x7d/, '')` — whose pattern is the
start anchor `^` followed by the two literal characters `\x7b\x7d`, since
`\x7b\x7d` is not a valid quantifier — drops a leading literal `\x7b\x7d`. -/
def remoteTagLine (line : Str) : Option Str :=
  match jsSplit '\t' line with
  | [] => none
  | [_] => none
  | _ :: fullTagName :: _ =>
    if fullTagName = [] then none
    else if jsEndsWith fullTagName "^\x7b\x7d".toList then none
    else some (jsDropStart "\x7b\x7d".toList (jsDropStart "refs/tags/".toList fullTagName))

/-- `fetchRemoteTags` parsing core: map `remoteTagLine` over the lines of
stdout and keep the non-`null` results. -/
def fetchRemoteTags (stdout : Str) : List Str :=
  ((jsSplit '\n' stdout).map remoteTagLine).filterMap id

/-- `isTagReachableByRemote` parsing core: split stdout into lines, keep
the lines starting with `remote.name + '/'`, return whether any remain. -/
def isTagReachableByRemote (remoteName : Str) (stdout : Str) : Bool :=
  decide (((jsSplit '\n' stdout).filter
    (fun line => jsStartsWith line (remoteName ++ "/".toList))).length > 0)

/-- The lines of a remote listing mapped through `remoteTagLine`, keeping
the non-`null` results; `fetchRemoteTags` is this applied to the lines. -/
def fetchLines (lines : List Str) : List Str :=
  (lines.map remoteTagLine).filterMap id

theorem fetchRemoteTags_eq_fetchLines (stdout : Str) :
    fetchRemoteTags stdout = fetchLines (jsSplit '\n' stdout) := rfl

theorem fetchLines_append (a b : List Str) :
    fetchLines (a ++ b) = fetchLines a ++ fetchLines b := by
  simp [fetchLines]

theorem jsSplit_ne_nil (sep : Char) (s : Str) : jsSplit sep s ≠ [] := by
  cases s with
  | nil => simp [jsSplit]
  | cons ch cs =>
    simp only [jsSplit]
    split
    · simp
    · split <;> simp

theorem jsSplit_cons_self (sep : Char) (cs : Str) :
    jsSplit sep (sep :: cs) = [] :: jsSplit sep cs := by
  simp [jsSplit]

theorem jsSplit_cons_ne (sep ch : Char) (cs : Str) (h : ¬ ch = sep) (r : Str) (rs : List Str)
    (hcs : jsSplit sep cs = r :: rs) : jsSplit sep (ch :: cs) = (ch :: r) :: rs := by
  simp [jsSplit, if_neg h, hcs]

/-- Splitting distributes over a separator occurrence. -/
theorem jsSplit_append (sep : Char) (a b : Str) :
    jsSplit sep (a ++ sep :: b) = jsSplit sep a ++ jsSplit sep b := by
  induction a with
  | nil => simp [jsSplit]
  | cons ch cs ih =>
    by_cases h : ch = sep
    · subst h
      rw [List.cons_append, jsSplit_cons_self, jsSplit_cons_self, ih]
      rfl
    · cases hcs : jsSplit sep cs with
      | nil => exact absurd hcs (jsSplit_ne_nil sep cs)
      | cons r rs =>
        have hab : jsSplit sep (cs ++ sep :: b) = r :: (rs ++ jsSplit sep b) := by
          rw [ih, hcs]; rfl
        rw [List.cons_append, jsSplit_cons_ne sep ch _ h _ _ hab,
            jsSplit_cons_ne sep ch _ h _ _ hcs]
        rfl

/-- A separator-free string splits into the single piece it is. -/
theorem jsSplit_eq_single (sep : Char) (a : Str) (h : sep ∉ a) : jsSplit sep a = [a] := by
  induction a with
  | nil => rfl
  | cons ch cs ih =>
    simp only [List.mem_cons, not_or] at h
    have hch : ¬ ch = sep := fun he => h.1 he.symm
    simp only [jsSplit, if_neg hch]
    rw [ih h.2]

/-- No piece produced by splitting contains the separator. -/
theorem sep_not_mem_of_mem_jsSplit {sep : Char} {s x : Str}
    (h : x ∈ jsSplit sep s) : sep ∉ x := by
  induction s generalizing x with
  | nil =>
    simp only [jsSplit, List.mem_singleton] at h
    subst h; simp
  | cons ch cs ih =>
    by_cases hc : ch = sep
    · subst hc
      rw [jsSplit_cons_self] at h
      rcases List.mem_cons.mp h with h1 | h1
      · subst h1; simp
      · exact ih h1
    · cases hcs : jsSplit sep cs with
      | nil => exact absurd hcs (jsSplit_ne_nil sep cs)
      | cons r rs =>
        rw [jsSplit_cons_ne sep ch _ hc _ _ hcs] at h
        rcases List.mem_cons.mp h with h1 | h1
        · subst h1
          have hr : sep ∉ r := ih (by rw [hcs]; exact List.mem_cons_self r rs)
          intro hmem
          rcases List.mem_cons.mp hmem with he | hmr
          · exact hc he.symm
          · exact hr hmr
        · exact ih (by rw [hcs]; exact List.mem_cons_of_mem r h1)

/-- A character absent from the split string is absent from every piece. -/
theorem not_mem_of_mem_jsSplit {sep d : Char} {s x : Str}
    (hd : d ∉ s) (h : x ∈ jsSplit sep s) : d ∉ x := by
  induction s generalizing x with
  | nil =>
    simp only [jsSplit, List.mem_singleton] at h
    subst h; simp
  | cons ch cs ih =>
    have hdc : ¬ d = ch := fun he => hd (he ▸ List.mem_cons_self ch cs)
    have hdcs : d ∉ cs := fun hm => hd (List.mem_cons_of_mem ch hm)
    by_cases hc : ch = sep
    · subst hc
      rw [jsSplit_cons_self] at h
      rcases List.mem_cons.mp h with h1 | h1
      · subst h1; simp
      · exact ih hdcs h1
    · cases hcs : jsSplit sep cs with
      | nil => exact absurd hcs (jsSplit_ne_nil sep cs)
      | cons r rs =>
        rw [jsSplit_cons_ne sep ch _ hc _ _ hcs] at h
        rcases List.mem_cons.mp h with h1 | h1
        · subst h1
          have hr : d ∉ r := ih hdcs (by rw [hcs]; exact List.mem_cons_self r rs)
          intro hmem
          rcases List.mem_cons.mp hmem with he | hmr
          · exact hdc he
          · exact hr hmr
        · exact ih hdcs (by rw [hcs]; exact List.mem_cons_of_mem r h1)

/-- Dropping an anchored pattern yields a suffix of the original string. -/
theorem jsDropStart_suffix (pat s : Str) : jsDropStart pat s <:+ s := by
  unfold jsDropStart
  split
  · exact List.drop_suffix _ _
  · exact List.suffix_refl s

theorem getAllTags_nil : getAllTags [] = [] := by decide

theorem getAnnotatedTags_nil : getAnnotatedTags [] = [] := by decide

theorem fetchRemoteTags_nil : fetchRemoteTags [] = [] := by decide

/-- `getAllTags` consumes one leading newline-free line at a time. -/
theorem getAllTags_line (line rest : Str) (h : '\n' ∉ line) :
    getAllTags (line ++ '\n' :: rest)
      = (if line = [] then [] else [line]) ++ getAllTags rest := by
  unfold getAllTags
  rw [jsSplit_append, jsSplit_eq_single _ _ h, List.filter_append]
  by_cases hl : line = [] <;> simp [hl, List.filter_cons]

/-- `getAnnotatedTags` consumes one leading newline-free line at a time. -/
theorem getAnnotatedTags_line (line rest : Str) (h : '\n' ∉ line) :
    getAnnotatedTags (line ++ '\n' :: rest)
      = (if annotatedLine line = [] then [] else [annotatedLine line])
        ++ getAnnotatedTags rest := by
  unfold getAnnotatedTags
  rw [jsSplit_append, jsSplit_eq_single _ _ h, List.map_append, List.filter_append]
  by_cases hl : annotatedLine line = [] <;> simp [hl, List.filter_cons]

/-- `fetchRemoteTags` consumes one leading newline-free line at a time. -/
theorem fetchRemoteTags_line (line rest : Str) (h : '\n' ∉ line) :
    fetchRemoteTags (line ++ '\n' :: rest)
      = (remoteTagLine line).toList ++ fetchRemoteTags rest := by
  rw [fetchRemoteTags_eq_fetchLines, fetchRemoteTags_eq_fetchLines,
      jsSplit_append, jsSplit_eq_single _ _ h, fetchLines_append]
  cases ho : remoteTagLine line <;> simp [fetchLines, ho]

/-- `fetchRemoteTags` on a listing line of the shape
`sha TAB field NEWLINE rest`, with sha and field free of tab and newline. -/
theorem fetchRemoteTags_tabline (sha f rest : Str)
    (hsha : '\t' ∉ sha ∧ '\n' ∉ sha) (hf : '\t' ∉ f ∧ '\n' ∉ f) :
    fetchRemoteTags (sha ++ '\t' :: f ++ '\n' :: rest)
      = (if f = [] then [] else if jsEndsWith f "^\x7b\x7d".toList then []
          else [jsDropStart "\x7b\x7d".toList (jsDropStart "refs/tags/".toList f)])
        ++ fetchRemoteTags rest := by
  have hline : '\n' ∉ sha ++ '\t' :: f := by
    intro hm
    rcases List.mem_append.mp hm with hm | hm
    · exact hsha.2 hm
    · rcases List.mem_cons.mp hm with hm | hm
      · exact absurd hm (by decide)
      · exact hf.2 hm
  have hshape : sha ++ '\t' :: f ++ '\n' :: rest = (sha ++ '\t' :: f) ++ '\n' :: rest := by
    simp [List.append_assoc]
  have hfields : jsSplit '\t' (sha ++ '\t' :: f) = [sha, f] := by
    rw [jsSplit_append, jsSplit_eq_single _ _ hsha.1, jsSplit_eq_single _ _ hf.1]
    rfl
  have hrl : remoteTagLine (sha ++ '\t' :: f)
      = (if f = [] then none else if jsEndsWith f "^\x7b\x7d".toList then none
          else some (jsDropStart "\x7b\x7d".toList (jsDropStart "refs/tags/".toList f))) := by
    unfold remoteTagLine
    rw [hfields]
  rw [hshape, fetchRemoteTags_line _ _ hline, hrl]
  by_cases h1 : f = []
  · rw [if_pos h1, if_pos h1]
    rfl
  · rw [if_neg h1, if_neg h1]
    by_cases h2 : jsEndsWith f "^\x7b\x7d".toList = true
    · rw [if_pos h2, if_pos h2]
      rfl
    · rw [if_neg h2, if_neg h2]
      rfl

/-- `getAnnotatedTags` on a formatted line of the shape
`name NUL type NEWLINE rest`, with name free of NUL and both fields free of
newline. -/
theorem getAnnotatedTags_fieldline (n ty rest : Str)
    (hn1 : '\n' ∉ n) (hn0 : '\x00' ∉ n) (hty : '\n' ∉ ty) :
    getAnnotatedTags (n ++ '\x00' :: ty ++ '\n' :: rest)
      = (if (jsSplit '\x00' ty).headI = "tag".toList ∧ n ≠ [] then [n] else [])
        ++ getAnnotatedTags rest := by
  have hline : '\n' ∉ n ++ '\x00' :: ty := by
    intro hm
    rcases List.mem_append.mp hm with hm | hm
    · exact hn1 hm
    · rcases List.mem_cons.mp hm with hm | hm
      · exact absurd hm (by decide)
      · exact hty hm
  have hshape : n ++ '\x00' :: ty ++ '\n' :: rest = (n ++ '\x00' :: ty) ++ '\n' :: rest := by
    simp [List.append_assoc]
  have hne : ¬ (n ++ '\x00' :: ty = []) := by simp
  have hfields : jsSplit '\x00' (n ++ '\x00' :: ty) = n :: jsSplit '\x00' ty := by
    rw [jsSplit_append, jsSplit_eq_single _ _ hn0]
    rfl
  have hAL : annotatedLine (n ++ '\x00' :: ty)
      = if (jsSplit '\x00' ty).headI = "tag".toList then n else [] := by
    unfold annotatedLine
    rw [if_neg hne, hfields]
    cases hty2 : jsSplit '\x00' ty with
    | nil => exact absurd hty2 (jsSplit_ne_nil _ _)
    | cons t0 ts => simp
  by_cases h1 : (jsSplit '\x00' ty).headI = "tag".toList
  · have hAL2 : annotatedLine (n ++ '\x00' :: ty) = n := by rw [hAL, if_pos h1]
    rw [hshape, getAnnotatedTags_line _ _ hline, hAL2]
    by_cases h2 : n = []
    · rw [if_pos h2, if_neg (fun hc => hc.2 h2)]
    · rw [if_neg h2, if_pos ⟨h1, h2⟩]
  · have hAL2 : annotatedLine (n ++ '\x00' :: ty) = [] := by rw [hAL, if_neg h1]
    rw [hshape, getAnnotatedTags_line _ _ hline, hAL2,
        if_pos rfl, if_neg (fun hc => h1 hc.1)]

/-- Claim C1 is false as stated: `getAllTags` returns runner lines verbatim,
so on output `refs/tags/v1^\x7b\x7d\n` it returns a name that both starts with
`refs/tags/` and ends with the dereference suffix; and `fetchRemoteTags`
strips only one leading `refs/tags/`, so a doubled prefix survives. -/
theorem claim1_counterexample :
    (getAllTags "refs/tags/v1^\x7b\x7d\n".toList = ["refs/tags/v1^\x7b\x7d".toList]
        ∧ jsStartsWith "refs/tags/v1^\x7b\x7d".toList "refs/tags/".toList = true
        ∧ jsEndsWith "refs/tags/v1^\x7b\x7d".toList "^\x7b\x7d".toList = true)
      ∧ (fetchRemoteTags "x\trefs/tags/refs/tags/v1\n".toList = ["refs/tags/v1".toList]
        ∧ jsStartsWith "refs/tags/v1".toList "refs/tags/".toList = true) := by
  decide

/-- Claim C1 (amended): only `fetchRemoteTags` normalizes names, and the
guarantee it gives is on the suffix: no name it returns ends with the
dereference marker, for any runner output. -/
theorem claim1_amended (stdout t : Str) (h : t ∈ fetchRemoteTags stdout) :
    jsEndsWith t "^\x7b\x7d".toList = false := by
  rw [fetchRemoteTags_eq_fetchLines] at h
  unfold fetchLines at h
  rcases List.mem_filterMap.mp h with ⟨o, ho, hid⟩
  rcases List.mem_map.mp ho with ⟨line, hline, heq⟩
  have hsome : remoteTagLine line = some t := by rw [heq]; exact hid
  unfold remoteTagLine at hsome
  cases hsp : jsSplit '\t' line with
  | nil => exact absurd hsp (jsSplit_ne_nil _ _)
  | cons a r2 =>
    rw [hsp] at hsome
    cases r2 with
    | nil => exact Option.noConfusion hsome
    | cons f r3 =>
      change (if f = [] then none
          else if jsEndsWith f "^\x7b\x7d".toList then none
          else some (jsDropStart "\x7b\x7d".toList (jsDropStart "refs/tags/".toList f)))
        = some t at hsome
      by_cases h1 : f = []
      · rw [if_pos h1] at hsome
        exact Option.noConfusion hsome
      · rw [if_neg h1] at hsome
        by_cases h2 : jsEndsWith f "^\x7b\x7d".toList = true
        · rw [if_pos h2] at hsome
          exact Option.noConfusion hsome
        · rw [if_neg h2] at hsome
          have ht : t = jsDropStart "\x7b\x7d".toList (jsDropStart "refs/tags/".toList f) :=
            (Option.some.inj hsome).symm
          have hsuf : t <:+ f := by
            rw [ht]
            exact (jsDropStart_suffix _ _).trans (jsDropStart_suffix _ _)
          cases hend : jsEndsWith t "^\x7b\x7d".toList
          · rfl
          · exfalso
            apply h2
            unfold jsEndsWith at hend ⊢
            rw [List.isSuffixOf_iff_suffix] at hend ⊢
            exact hend.trans hsuf

theorem claim1_amended_witness :
    ("v1".toList ∈ fetchRemoteTags "x\trefs/tags/v1\n".toList)
      ∧ jsEndsWith "v1".toList "^\x7b\x7d".toList = false :=
  ⟨by decide, claim1_amended "x\trefs/tags/v1\n".toList "v1".toList (by decide)⟩

/-- Claim C2 (confirmed): on runner output
`sha1 TAB refs/tags/v1 NL sha2 TAB refs/tags/v1^\x7b\x7d NL sha3 TAB refs/tags/v2 NL`,
for any tab- and newline-free sha fields, `fetchRemoteTags` returns exactly
`[v1, v2]`: the peeled duplicate is suppressed, the lightweight tag kept. -/
theorem claim2_peeled_example (s1 s2 s3 : Str)
    (h1 : '\t' ∉ s1 ∧ '\n' ∉ s1) (h2 : '\t' ∉ s2 ∧ '\n' ∉ s2) (h3 : '\t' ∉ s3 ∧ '\n' ∉ s3) :
    fetchRemoteTags (s1 ++ "\trefs/tags/v1\n".toList ++ s2 ++ "\trefs/tags/v1^\x7b\x7d\n".toList
        ++ s3 ++ "\trefs/tags/v2\n".toList) = ["v1".toList, "v2".toList] := by
  have hre : s1 ++ "\trefs/tags/v1\n".toList ++ s2 ++ "\trefs/tags/v1^\x7b\x7d\n".toList
      ++ s3 ++ "\trefs/tags/v2\n".toList
      = s1 ++ '\t' :: "refs/tags/v1".toList ++ '\n'
        :: (s2 ++ '\t' :: "refs/tags/v1^\x7b\x7d".toList ++ '\n'
        :: (s3 ++ '\t' :: "refs/tags/v2".toList ++ '\n' :: ([] : Str))) := by
    simp only [List.append_assoc]
    rfl
  rw [hre, fetchRemoteTags_tabline s1 _ _ h1 (by decide),
      fetchRemoteTags_tabline s2 _ _ h2 (by decide),
      fetchRemoteTags_tabline s3 _ _ h3 (by decide)]
  decide

theorem claim2_witness :
    fetchRemoteTags ("sha1".toList ++ "\trefs/tags/v1\n".toList ++ "sha2".toList
        ++ "\trefs/tags/v1^\x7b\x7d\n".toList ++ "sha3".toList ++ "\trefs/tags/v2\n".toList)
      = ["v1".toList, "v2".toList] :=
  claim2_peeled_example "sha1".toList "sha2".toList "sha3".toList
    ⟨by decide, by decide⟩ ⟨by decide, by decide⟩ ⟨by decide, by decide⟩

/-- Claim C6 (confirmed): `isTagReachableByRemote` returns true iff some
line of the runner output starts with the remote name followed by `/`,
and the two concrete examples from the spec hold. -/
theorem claim6_reachability :
    (∀ (remoteName stdout : Str),
        isTagReachableByRemote remoteName stdout = true
          ↔ ∃ line ∈ jsSplit '\n' stdout, jsStartsWith line (remoteName ++ "/".toList) = true)
      ∧ isTagReachableByRemote "origin".toList "origin/main\nupstream/main\n".toList = true
      ∧ isTagReachableByRemote "origin".toList "upstream/main\n".toList = false := by
  refine ⟨fun r s => ?_, by decide, by decide⟩
  unfold isTagReachableByRemote
  rw [decide_eq_true_eq]
  constructor
  · intro h
    cases hf : (jsSplit '\n' s).filter (fun line => jsStartsWith line (r ++ "/".toList)) with
    | nil => rw [hf] at h; simp at h
    | cons l ls =>
      have hl : l ∈ (jsSplit '\n' s).filter (fun line => jsStartsWith line (r ++ "/".toList)) := by
        rw [hf]; exact List.mem_cons_self l ls
      have hm := List.mem_filter.mp hl
      exact ⟨l, hm.1, hm.2⟩
  · rintro ⟨line, hmem, hp⟩
    have hmf : line ∈ (jsSplit '\n' s).filter (fun line => jsStartsWith line (r ++ "/".toList)) :=
      List.mem_filter.mpr ⟨hmem, hp⟩
    exact List.length_pos.mpr (List.ne_nil_of_mem hmf)

/-- Claim C8 (confirmed): the empty runner output yields an empty result
for each listing operation, and a false reachability answer. -/
theorem claim8_empty_output :
    getAllTags "".toList = [] ∧ getAnnotatedTags "".toList = []
      ∧ fetchRemoteTags "".toList = []
      ∧ ∀ remoteName : Str, isTagReachableByRemote remoteName "".toList = false := by
  refine ⟨by decide, by decide, by decide, fun r => ?_⟩
  cases r with
  | nil => decide
  | cons c cs => rfl

/-- Claim C9 (confirmed): every name returned by the two local listings is
non-empty and contains no newline. -/
theorem claim9_local_names (stdout t : Str)
    (h : t ∈ getAllTags stdout ∨ t ∈ getAnnotatedTags stdout) :
    t ≠ [] ∧ '\n' ∉ t := by
  rcases h with h | h
  · unfold getAllTags at h
    have hm := List.mem_filter.mp h
    exact ⟨by simpa using hm.2, sep_not_mem_of_mem_jsSplit hm.1⟩
  · unfold getAnnotatedTags at h
    have hm := List.mem_filter.mp h
    have ht : t ≠ [] := by simpa using hm.2
    refine ⟨ht, ?_⟩
    rcases List.mem_map.mp hm.1 with ⟨line, hline, heq⟩
    have hnl : '\n' ∉ line := sep_not_mem_of_mem_jsSplit hline
    unfold annotatedLine at heq
    by_cases hl : line = []
    · rw [if_pos hl] at heq
      exact absurd heq.symm ht
    · rw [if_neg hl] at heq
      cases hsp : jsSplit '\x00' line with
      | nil => exact absurd hsp (jsSplit_ne_nil _ _)
      | cons n r2 =>
        rw [hsp] at heq
        cases r2 with
        | nil =>
          change ([] : Str) = t at heq
          exact absurd heq.symm ht
        | cons ty r3 =>
          change (if ty = "tag".toList then n else []) = t at heq
          by_cases hty : ty = "tag".toList
          · rw [if_pos hty] at heq
            have hn : n ∈ jsSplit '\x00' line := by
              rw [hsp]; exact List.mem_cons_self _ _
            have := not_mem_of_mem_jsSplit hnl hn
            rwa [heq] at this
          · rw [if_neg hty] at heq
            exact absurd heq.symm ht

theorem claim9_local_names_witness :
    ("v1".toList ∈ getAllTags "v1\n".toList) ∧ ("v1".toList ≠ [] ∧ '\n' ∉ "v1".toList) :=
  ⟨by decide, claim9_local_names "v1\n".toList "v1".toList (Or.inl (by decide))⟩

/-- Claim C10 (confirmed): on runner output `x TAB refs/tags/ NL`, the
second tab-field `refs/tags/` passes the missing-or-empty check, is not
peeled, and strips to the empty name, which `fetchRemoteTags` returns. -/
theorem claim10_empty_name :
    remoteTagLine "x\trefs/tags/".toList = some []
      ∧ fetchRemoteTags "x\trefs/tags/\n".toList = [[]] := by
  decide

/-- The kept-line rule as the amended spec words it: take the second
tab-field when present; keep the line when the field is non-empty and does
not end with the peeled marker; return the field with a leading
`refs/tags/` and then a leading literal `\x7b\x7d` dropped. -/
def remoteTagLineSpec (line : Str) : Option Str :=
  match (jsSplit '\t' line)[1]? with
  | none => none
  | some f =>
    if f ≠ [] ∧ ¬ jsEndsWith f "^\x7b\x7d".toList = true
    then some (jsDropStart "\x7b\x7d".toList (jsDropStart "refs/tags/".toList f))
    else none

/-- The remote parse as the amended spec words it, line by line. -/
def fetchRemoteTagsSpec (stdout : Str) : List Str :=
  (jsSplit '\n' stdout).filterMap remoteTagLineSpec

theorem remoteTagLine_eq_spec (line : Str) : remoteTagLine line = remoteTagLineSpec line := by
  unfold remoteTagLine remoteTagLineSpec
  cases hsp : jsSplit '\t' line with
  | nil => exact absurd hsp (jsSplit_ne_nil _ _)
  | cons a r2 =>
    cases r2 with
    | nil => rfl
    | cons f r3 =>
      rw [List.getElem?_cons_succ, List.getElem?_cons_zero]
      show (if f = [] then none
          else if jsEndsWith f "^\x7b\x7d".toList then none
          else some (jsDropStart "\x7b\x7d".toList (jsDropStart "refs/tags/".toList f)))
        = (if f ≠ [] ∧ ¬ jsEndsWith f "^\x7b\x7d".toList = true
          then some (jsDropStart "\x7b\x7d".toList (jsDropStart "refs/tags/".toList f))
          else none)
      by_cases h1 : f = []
      · rw [if_pos h1, if_neg (fun hc => hc.1 h1)]
      · rw [if_neg h1]
        by_cases h2 : jsEndsWith f "^\x7b\x7d".toList = true
        · rw [if_pos h2, if_neg (fun hc => hc.2 h2)]
        · rw [if_neg h2, if_pos ⟨h1, h2⟩]

/-- Claim C3 is false in its `^\x7b\x7d`-artifact part: the second replace
of the source strips a leading literal `\x7b\x7d`, not a leading `^\x7b\x7d`,
so a field starting with `^\x7b\x7d` comes back starting with `^\x7b\x7d`. -/
theorem claim3_counterexample :
    fetchRemoteTags "x\t^\x7b\x7dfoo\n".toList = ["^\x7b\x7dfoo".toList]
      ∧ jsStartsWith "^\x7b\x7dfoo".toList "^\x7b\x7d".toList = true := by
  decide

/-- Claim C3 (amended): for every kept line the returned name is the second
tab-field with a leading `refs/tags/` and then a leading literal `\x7b\x7d`
dropped; returned names can begin with `^\x7b\x7d`. -/
theorem claim3_amended (stdout : Str) :
    fetchRemoteTags stdout = fetchRemoteTagsSpec stdout := by
  rw [fetchRemoteTags_eq_fetchLines]
  unfold fetchLines fetchRemoteTagsSpec
  rw [List.filterMap_map]
  congr 1
  funext line
  exact remoteTagLine_eq_spec line

/-- The per-line rule of the annotated listing as the amended spec words
it: split on the null byte; keep the first field exactly when the second
field is literally `tag` and the first field is non-empty. -/
def annotatedLineSpec (line : Str) : Option Str :=
  match jsSplit '\x00' line with
  | name :: objType :: _ => if objType = "tag".toList ∧ name ≠ [] then some name else none
  | _ => none

/-- The annotated-tag parse as the amended spec words it, line by line. -/
def getAnnotatedTagsSpec (stdout : Str) : List Str :=
  (jsSplit '\n' stdout).filterMap annotatedLineSpec

theorem annotatedLineSpec_eq (line : Str) :
    annotatedLineSpec line
      = if annotatedLine line = [] then none else some (annotatedLine line) := by
  unfold annotatedLineSpec annotatedLine
  by_cases hl : line = []
  · subst hl
    rfl
  · rw [if_neg hl]
    cases hsp : jsSplit '\x00' line with
    | nil => exact absurd hsp (jsSplit_ne_nil _ _)
    | cons n r2 =>
      cases r2 with
      | nil => rfl
      | cons ty r3 =>
        show (if ty = "tag".toList ∧ n ≠ [] then some n else none)
          = if (if ty = "tag".toList then n else []) = [] then none
            else some (if ty = "tag".toList then n else [])
        by_cases ht : ty = "tag".toList
        · rw [if_pos ht]
          by_cases hn : n = []
          · rw [if_neg (fun hc => hc.2 hn), if_pos hn]
          · rw [if_pos ⟨ht, hn⟩, if_neg hn]
        · rw [if_neg ht, if_neg (fun hc => ht hc.1), if_pos rfl]

/-- Claim C5 is false in its boundary case: on the line `NUL tag` the
second field is literally `tag`, yet the empty first field is not kept. -/
theorem claim5_counterexample :
    jsSplit '\x00' "\x00tag".toList = [[], "tag".toList]
      ∧ getAnnotatedTags "\x00tag\n".toList = [] := by
  decide

/-- Claim C5 (amended): each line is split on the null byte and the first
field is kept exactly when the second field is literally `tag` and the
first field is non-empty; on `v1 NUL tag NL v2 NUL commit NL` the result
is exactly `[v1]`. -/
theorem claim5_amended :
    (∀ stdout : Str, getAnnotatedTags stdout = getAnnotatedTagsSpec stdout)
      ∧ getAnnotatedTags "v1\x00tag\nv2\x00commit\n".toList = ["v1".toList] := by
  refine ⟨fun stdout => ?_, by decide⟩
  unfold getAnnotatedTags getAnnotatedTagsSpec
  generalize jsSplit '\n' stdout = lines
  induction lines with
  | nil => rfl
  | cons line rest ih =>
    rw [List.map_cons, List.filterMap_cons, List.filter_cons, annotatedLineSpec_eq line]
    by_cases hal : annotatedLine line = []
    · simp only [hal]
      simp only [ne_eq] at ih ⊢
      simpa using ih
    · simp only [hal]
      simp [hal]
      simpa using ih

/-- `fetchRemoteTags` splits at a newline into the lines before it and the
parse of the text after it. -/
theorem fetchRemoteTags_sep (p x : Str) :
    fetchRemoteTags (p ++ '\n' :: x)
      = fetchLines (jsSplit '\n' p) ++ fetchRemoteTags x := by
  rw [fetchRemoteTags_eq_fetchLines, fetchRemoteTags_eq_fetchLines, jsSplit_append,
      fetchLines_append]

/-- Claim C4 is false as stated: the parser performs no general
deduplication, so a name listed twice unpeeled is returned twice. -/
theorem claim4_counterexample :
    fetchRemoteTags "a\trefs/tags/v1\nb\trefs/tags/v1\n".toList = ["v1".toList, "v1".toList]
      ∧ ¬ (fetchRemoteTags "a\trefs/tags/v1\nb\trefs/tags/v1\n".toList).Nodup := by
  decide

/-- Claim C4 (amended): what the parser does enforce is the collapse of
dereference entries: deleting a peeled line (one whose second tab-field
ends with `^\x7b\x7d`) from the runner output, at a line boundary, leaves
the result of `fetchRemoteTags` unchanged. -/
theorem claim4_amended (pre sha name suf : Str)
    (hpre : pre = [] ∨ ∃ p, pre = p ++ ['\n'])
    (hsha : '\t' ∉ sha ∧ '\n' ∉ sha) (hname : '\t' ∉ name ∧ '\n' ∉ name) :
    fetchRemoteTags (pre ++ sha ++ '\t' :: name ++ "^\x7b\x7d\n".toList ++ suf)
      = fetchRemoteTags (pre ++ suf) := by
  have hf1 : '\t' ∉ name ++ "^\x7b\x7d".toList := by
    intro hm
    rcases List.mem_append.mp hm with hm | hm
    · exact hname.1 hm
    · exact absurd hm (by decide)
  have hf2 : '\n' ∉ name ++ "^\x7b\x7d".toList := by
    intro hm
    rcases List.mem_append.mp hm with hm | hm
    · exact hname.2 hm
    · exact absurd hm (by decide)
  have hfne : ¬ (name ++ "^\x7b\x7d".toList = []) := by simp
  have hends : jsEndsWith (name ++ "^\x7b\x7d".toList) "^\x7b\x7d".toList = true := by
    unfold jsEndsWith
    rw [List.isSuffixOf_iff_suffix]
    exact List.suffix_append name _
  rcases hpre with hpre | ⟨p, hpre⟩
  · subst hpre
    have hre : ([] : Str) ++ sha ++ '\t' :: name ++ "^\x7b\x7d\n".toList ++ suf
        = sha ++ '\t' :: (name ++ "^\x7b\x7d".toList) ++ '\n' :: suf := by
      simp only [List.append_assoc, List.cons_append, List.nil_append]
      rfl
    rw [hre, fetchRemoteTags_tabline sha _ _ hsha ⟨hf1, hf2⟩, if_neg hfne, if_pos hends,
        List.nil_append, List.nil_append]
  · subst hpre
    have hre : p ++ ['\n'] ++ sha ++ '\t' :: name ++ "^\x7b\x7d\n".toList ++ suf
        = p ++ '\n' :: (sha ++ '\t' :: (name ++ "^\x7b\x7d".toList) ++ '\n' :: suf) := by
      simp only [List.append_assoc, List.cons_append, List.nil_append, List.singleton_append]
      rfl
    have hre2 : p ++ ['\n'] ++ suf = p ++ '\n' :: suf := by
      simp only [List.append_assoc, List.singleton_append]
    rw [hre, hre2,
        fetchRemoteTags_sep p (sha ++ '\t' :: (name ++ "^\x7b\x7d".toList) ++ '\n' :: suf)]
    rw [fetchRemoteTags_tabline sha _ _ hsha ⟨hf1, hf2⟩, if_neg hfne, if_pos hends,
        List.nil_append]
    rw [fetchRemoteTags_sep p suf]

theorem claim4_amended_witness :
    fetchRemoteTags ("a\trefs/tags/v1\n".toList ++ "b".toList ++ '\t' :: "refs/tags/v1".toList
        ++ "^\x7b\x7d\n".toList ++ [])
      = fetchRemoteTags ("a\trefs/tags/v1\n".toList ++ []) :=
  claim4_amended "a\trefs/tags/v1\n".toList "b".toList "refs/tags/v1".toList []
    (Or.inr ⟨"a\trefs/tags/v1".toList, by decide⟩)
    ⟨by decide, by decide⟩ ⟨by decide, by decide⟩

/-- One repository state for claim C7: a list of (name, objectType) pairs.
The plain local listing prints one name per line. -/
def plainListing (l : List (Str × Str)) : Str :=
  l.foldr (fun p acc => p.1 ++ '\n' :: acc) []

/-- The formatted local listing prints `name NUL objectType` per line for
the same tags. -/
def formattedListing (l : List (Str × Str)) : Str :=
  l.foldr (fun p acc => p.1 ++ '\x00' :: (p.2 ++ '\n' :: acc)) []

/-- Claim C7 (confirmed): when the two runner outputs describe the same
tags (names newline- and NUL-free, types newline-free), every name
returned by `getAnnotatedTags` is also returned by `getAllTags`. -/
theorem claim7_subset (l : List (Str × Str))
    (hok : ∀ p ∈ l, '\n' ∉ p.1 ∧ '\x00' ∉ p.1 ∧ '\n' ∉ p.2) :
    ∀ t ∈ getAnnotatedTags (formattedListing l), t ∈ getAllTags (plainListing l) := by
  induction l with
  | nil =>
    intro t ht
    rw [show formattedListing [] = ([] : Str) from rfl, getAnnotatedTags_nil] at ht
    exact absurd ht (List.not_mem_nil t)
  | cons q l ih =>
    intro t ht
    obtain ⟨n, ty⟩ := q
    have hq := hok (n, ty) (List.mem_cons_self _ _)
    have hok2 : ∀ p ∈ l, '\n' ∉ p.1 ∧ '\x00' ∉ p.1 ∧ '\n' ∉ p.2 :=
      fun p hp => hok p (List.mem_cons_of_mem _ hp)
    have hfmt : formattedListing ((n, ty) :: l)
        = (n ++ '\x00' :: ty) ++ '\n' :: formattedListing l := by
      show n ++ '\x00' :: (ty ++ '\n' :: formattedListing l)
        = (n ++ '\x00' :: ty) ++ '\n' :: formattedListing l
      simp only [List.append_assoc, List.cons_append]
    rw [hfmt, getAnnotatedTags_fieldline n ty _ hq.1 hq.2.1 hq.2.2] at ht
    rw [show plainListing ((n, ty) :: l) = n ++ '\n' :: plainListing l from rfl,
        getAllTags_line _ _ hq.1]
    rcases List.mem_append.mp ht with hmem | hmem
    · by_cases hc : (jsSplit '\x00' ty).headI = "tag".toList ∧ n ≠ []
      · rw [if_pos hc] at hmem
        have htn : t = n := List.mem_singleton.mp hmem
        subst htn
        rw [if_neg hc.2]
        exact List.mem_append.mpr (Or.inl (List.mem_singleton.mpr rfl))
      · rw [if_neg hc] at hmem
        exact absurd hmem (List.not_mem_nil t)
    · exact List.mem_append.mpr (Or.inr (ih hok2 t hmem))

theorem claim7_subset_witness :
    "v1".toList
      ∈ getAllTags (plainListing [("v1".toList, "tag".toList), ("v2".toList, "commit".toList)]) :=
  claim7_subset [("v1".toList, "tag".toList), ("v2".toList, "commit".toList)] (by decide)
    "v1".toList (by decide)

